import Mathlib

/-!
# mCHAT: a shallow embedding of `main.go`

The development follows the Go source: strings are byte sequences, `int` is a
64-bit two's-complement integer, fallible functions return `Except`, and the
two event handlers of `main` (the listener goroutine and the input field's
done-callback) are state transformers on an explicit `World`.

What lies outside `main.go` is modelled as follows.

* AES-GCM is an abstract `AEAD`, a pair of functions `Seal` and `Open`; the
  key-size check of `aes.NewCipher` and the nonce size 12 are kept.
* `encoding/base64` (`StdEncoding`), `strings.SplitN`, `strings.Split`,
  `strings.Join`, `strings.Contains`, `strings.HasPrefix` and `io.ReadFull` are
  modelled after the Go standard library.
* `deriveKey` is SHA-256 of the password; the handlers only see its result,
  the field `key` of a `Session`.
* The terminal view is the list of lines appended to it. The URL markup of
  `formatMessageWithURLs` is part of how a chat line is drawn and is not
  modelled: a chat line is recorded by its timestamp, sender and message text.
* Calls of `encrypt`, `decrypt`, `gcm.Open` and `sendConn.Write` are logged in
  the state, so that "is not called" can be stated.
-/

namespace MChat

/-! ## Bytes, strings and machine integers -/

/-- One byte. A Go `string` and a Go `[]byte` are both sequences of bytes. -/
abbrev Byte := Fin 256

/-- The bytes of an ASCII string literal. -/
def asc (s : String) : List Byte := s.toList.map (fun c => Fin.ofNat c.toNat)

/-- The byte `':'`. -/
def colon : Byte := 58

/-- The byte `'='`, the padding character of `base64.StdEncoding`. -/
def padChar : Byte := 61

/-- The byte `'\n'`. -/
def newline : Byte := 10

/-- The byte `'\r'`. -/
def carriage : Byte := 13

/-- Go's `int` on a 64-bit platform: the two's-complement value of a
mathematical integer. -/
def wrapInt (x : Int) : Int := (x + 2 ^ 63) % 2 ^ 64 - 2 ^ 63

/-- Outcome of running a loop of the source with a bound on its iterations. -/
inductive Run (α : Type) where
  | done (a : α)
  | panicked
  | outOfFuel
  deriving DecidableEq, Repr

/-- The slice expression `s[lo:hi]` on a string: it panics (here `none`)
unless `0 ≤ lo ≤ hi ≤ len(s)`. -/
def sliceStr (s : List Byte) (lo hi : Int) : Option (List Byte) :=
  if 0 ≤ lo ∧ lo ≤ hi ∧ hi ≤ (s.length : Int) then
    some ((s.take hi.toNat).drop lo.toNat)
  else none

/-! ## Constants (main.go 24-28) -/

def maxChunkSize : Nat := 768

def maxInputSize : Nat := 768

/-- Size of the listener's read buffer, `make([]byte, 1024)` (main.go 272). -/
def readBufferSize : Nat := 1024

/-! ## splitMessage (main.go 96-106) -/

/-- The `for i := 0; i < len(message); i += chunkSize` loop of `splitMessage`,
started at index `i` with the chunks appended so far. -/
def splitLoop (message : List Byte) (chunkSize : Int) :
    Nat → Int → List (List Byte) → Run (List (List Byte))
  | 0, _, _ => Run.outOfFuel
  | fuel + 1, i, chunks =>
    if i < (message.length : Int) then
      let end0 := wrapInt (i + chunkSize)
      let end1 := if end0 > (message.length : Int) then (message.length : Int) else end0
      match sliceStr message i end1 with
      | none => Run.panicked
      | some c => splitLoop message chunkSize fuel (wrapInt (i + chunkSize)) (chunks ++ [c])
    else Run.done chunks

/-- The function `splitMessage`. The loop body runs at most `len(message)`
times when it advances, so `len(message) + 1` iterations are granted. -/
def splitMessage (message : List Byte) (chunkSize : Int) : Run (List (List Byte)) :=
  splitLoop message chunkSize (message.length + 1) 0 []

/-- What the chunking of `message` into pieces of `n` bytes promises: the number
of chunks is `ceil(len(message) / n)`, their concatenation is `message`, each is
non-empty and at most `n` long, and each one but the last is exactly `n` long. -/
def ChunksOf (message : List Byte) (n : Nat) (chunks : List (List Byte)) : Prop :=
  chunks.length = (message.length + n - 1) / n ∧
  chunks.flatten = message ∧
  (∀ c ∈ chunks, 0 < c.length ∧ c.length ≤ n) ∧
  (∀ j (h : j + 1 < chunks.length), (chunks[j]).length = n)

/-! ## The `strings` functions used by `main` -/

/-- Model of `strings.Index(s, sep)` for a one-byte separator: the index of its
first occurrence, `none` where Go returns `-1`. -/
def Index : List Byte → Byte → Option Nat
  | [], _ => none
  | c :: cs, sep => if c = sep then some 0 else (Index cs sep).map (fun m => m + 1)

/-- Model of `strings.Count(s, sep)` for a one-byte separator. -/
def Count (s : List Byte) (sep : Byte) : Nat := s.count sep

/-- Model of `strings.Contains(s, sep)`, which is `Index(s, sep) >= 0`. -/
def Contains (s : List Byte) (sep : Byte) : Bool := (Index s sep).isSome

/-- Model of `strings.HasPrefix(s, p)`, which is
`len(s) >= len(p) && s[:len(p)] == p`. -/
def HasPrefix (s p : List Byte) : Bool :=
  decide (p.length ≤ s.length) && decide (s.take p.length = p)

/-- The cutting loop of `strings.genSplit`: while fewer than `n - 1` cuts have
been made and the separator still occurs, cut at its first occurrence; the
remainder is the last element. `k` is the number of cuts still allowed. -/
def genSplitLoop (sep : Byte) : Nat → List Byte → List (List Byte)
  | 0, s => [s]
  | k + 1, s =>
    match Index s sep with
    | none => [s]
    | some m => s.take m :: genSplitLoop sep k (s.drop (m + 1))

/-- Model of `strings.genSplit(s, sep, 0, n)` for a one-byte separator. -/
def genSplit (s : List Byte) (sep : Byte) (n : Int) : List (List Byte) :=
  if n = 0 then []
  else
    let n1 : Nat := if n < 0 then Count s sep + 1 else n.toNat
    let n2 : Nat := if n1 > s.length + 1 then s.length + 1 else n1
    genSplitLoop sep (n2 - 1) s

/-- Model of `strings.SplitN(s, sep, n)`. -/
def SplitN (s : List Byte) (sep : Byte) (n : Int) : List (List Byte) := genSplit s sep n

/-- Model of `strings.Split(s, sep)`, which is `genSplit(s, sep, 0, -1)`. -/
def Split (s : List Byte) (sep : Byte) : List (List Byte) := genSplit s sep (-1)

/-- Model of `strings.Join(elems, sep)` for a one-byte separator. -/
def Join : List (List Byte) → Byte → List Byte
  | [], _ => []
  | [a], _ => a
  | a :: b :: rest, sep => a ++ sep :: Join (b :: rest) sep

/-! ## The message codec inside `main` -/

/-- The three strings the listener hands to the message view for one chat
message (main.go 298-300, 319-320). -/
structure ChatRecord where
  senderName : List Byte
  timestamp : List Byte
  messageText : List Byte
  deriving DecidableEq, Repr

/-- The plaintext of the send path, `fmt.Sprintf("%s:%s:%s", *username,
timestamp, message)` (main.go 342). -/
def framePlaintext (username timestamp message : List Byte) : List Byte :=
  username ++ colon :: (timestamp ++ colon :: message)

/-- The timestamp fix-up of the listener (main.go 302-313): when the timestamp
part holds no `':'`, split the message text on every `':'`; with three or more
pieces the first two move into the timestamp and the rest is joined again. -/
def fixTimestamp (timestamp messageText : List Byte) : List Byte × List Byte :=
  if !Contains timestamp colon then
    match Split messageText colon with
    | t0 :: t1 :: t2 :: rest =>
      (timestamp ++ colon :: (t0 ++ colon :: t1), Join (t2 :: rest) colon)
    | _ => (timestamp, messageText)
  else (timestamp, messageText)

/-- Parsing of a decrypted plaintext in the listener (main.go 296-313): the
record shown, or `none` when the `if len(parts) == 3 && parts[0] != *username`
guard is false. -/
def parseChat (username decrypted : List Byte) : Option ChatRecord :=
  match SplitN decrypted colon 3 with
  | [p0, p1, p2] =>
    if p0 ≠ username then
      let fixed := fixTimestamp p1 p2
      some { senderName := p0, timestamp := fixed.1, messageText := fixed.2 }
    else none
  | _ => none

/-- The text before the first `':'` (all of the text when it has none). -/
def beforeColon : List Byte → List Byte
  | [] => []
  | c :: cs => if c = colon then [] else c :: beforeColon cs

/-- The text after the first `':'` (empty when there is none). -/
def afterColon : List Byte → List Byte
  | [] => []
  | c :: cs => if c = colon then cs else afterColon cs

/-- An ASCII decimal digit. -/
def isDigit (c : Byte) : Bool := decide (48 ≤ c.val) && decide (c.val ≤ 57)

/-- A timestamp of the shape `HH:MM:SS`: two digits, colon, two digits, colon,
two digits. -/
def isClock : List Byte → Bool
  | [a, b, p, c, d, q, e, f] =>
    isDigit a && isDigit b && decide (p = colon) && isDigit c && isDigit d &&
      decide (q = colon) && isDigit e && isDigit f
  | _ => false

/-! ## Errors -/

/-- The error values that reach `main`, one constructor per Go error. -/
inductive Error where
  /-- `aes.KeySizeError(n)`, returned by `aes.NewCipher`. -/
  | keySize (n : Nat)
  /-- The error of `io.ReadFull(rand.Reader, nonce)`. -/
  | randRead
  /-- `base64.CorruptInputError(offset)`. -/
  | corruptInput (offset : Nat)
  /-- `fmt.Errorf("ciphertext too short")`. -/
  | tooShort
  /-- The error of `gcm.Open`, "cipher: message authentication failed". -/
  | openFailed
  /-- An error of `sendConn.Write`. -/
  | write
  /-- An error of `receiveConn.ReadFromUDP`. -/
  | read
  /-- Not an error value: the run-time panic "slice bounds out of range". -/
  | sliceBounds
  deriving DecidableEq, Repr

deriving instance DecidableEq for Except

/-! ## encoding/base64, `StdEncoding` -/

/-- The alphabet of `base64.StdEncoding`. -/
def encodeStd : List Byte :=
  asc "ABCDEFGHIJKLMNOPQRSTUVWXYZabcdefghijklmnopqrstuvwxyz0123456789+/"

/-- The table lookup `enc.encode[v & 0x3F]`. -/
def encodeChar (v : Nat) : Byte := encodeStd.getD (v % 64) 0

/-- The table `enc.decodeMap`: the index of a byte in the alphabet, `0xff` for
every byte outside it. -/
def decodeMap (c : Byte) : Nat :=
  if encodeStd.indexOf c < 64 then encodeStd.indexOf c else 255

/-- Model of `Encoding.Encode` for `StdEncoding`: three bytes become four
characters, `val := src[0]<<16 | src[1]<<8 | src[2]`; a remainder of one or
two bytes is padded with `'='`. -/
def EncodeToString : List Byte → List Byte
  | a :: b :: c :: rest =>
    let val := a.val * 65536 + b.val * 256 + c.val
    encodeChar (val / 262144) :: encodeChar (val / 4096) :: encodeChar (val / 64)
      :: encodeChar val :: EncodeToString rest
  | [a, b] =>
    let val := a.val * 65536 + b.val * 256
    [encodeChar (val / 262144), encodeChar (val / 4096), encodeChar (val / 64), padChar]
  | [a] =>
    let val := a.val * 65536
    [encodeChar (val / 262144), encodeChar (val / 4096), padChar, padChar]
  | [] => []

/-- The bytes of one quantum: `val := d0<<18 | d1<<12 | d2<<6 | d3`, then
`byte(val>>16), byte(val>>8), byte(val)`. -/
def quantumBytes (d0 d1 d2 d3 : Nat) : List Byte :=
  let val := d0 * 262144 + d1 * 4096 + d2 * 64 + d3
  [Fin.ofNat (val / 65536), Fin.ofNat (val / 256), Fin.ofNat val]

/-- The loop `for si < len(src) && (src[si] == '\n' || src[si] == '\r') { si++ }`
of `decodeQuantum`. -/
def skipNewlines : List Byte → Nat → List Byte × Nat
  | [], si => ([], si)
  | c :: cs, si =>
    if c = newline ∨ c = carriage then skipNewlines cs (si + 1) else (c :: cs, si)

/-- Model of `Encoding.Decode` for `StdEncoding` (padded, not strict): the loop
over `decodeQuantum`, read one input byte at a time. `si` is the index of the
next input byte and `dbuf` holds the sextets of the quantum read so far, so
that `j = len(dbuf)`. -/
def decodeLoop : List Byte → Nat → List Nat → Except Error (List Byte)
  | [], si, dbuf =>
    match dbuf with
    | [] => Except.ok []
    | _ => Except.error (Error.corruptInput (si - dbuf.length))
  | c :: rest, si, dbuf =>
    if decodeMap c ≠ 255 then
      match dbuf with
      | [d0, d1, d2] =>
        match decodeLoop rest (si + 1) [] with
        | Except.ok out => Except.ok (quantumBytes d0 d1 d2 (decodeMap c) ++ out)
        | Except.error e => Except.error e
      | _ => decodeLoop rest (si + 1) (dbuf ++ [decodeMap c])
    else if c = newline ∨ c = carriage then decodeLoop rest (si + 1) dbuf
    else if c ≠ padChar then Except.error (Error.corruptInput si)
    else
      match dbuf with
      | [d0, d1] =>
        match skipNewlines rest (si + 1) with
        | ([], si1) => Except.error (Error.corruptInput si1)
        | (c2 :: rest2, si1) =>
          if c2 ≠ padChar then Except.error (Error.corruptInput (si1 - 1))
          else
            match skipNewlines rest2 (si1 + 1) with
            | ([], _) => Except.ok ((quantumBytes d0 d1 0 0).take 1)
            | (_ :: _, si2) => Except.error (Error.corruptInput si2)
      | [d0, d1, d2] =>
        match skipNewlines rest (si + 1) with
        | ([], _) => Except.ok ((quantumBytes d0 d1 d2 0).take 2)
        | (_ :: _, si1) => Except.error (Error.corruptInput si1)
      | _ => Except.error (Error.corruptInput si)

/-- Model of `base64.StdEncoding.DecodeString`. -/
def DecodeString (s : List Byte) : Except Error (List Byte) := decodeLoop s 0 []

/-! ## crypto/aes and crypto/cipher: an abstract AEAD -/

/-- AES-GCM as an abstract AEAD. `Seal key nonce plaintext` is the ciphertext
followed by the tag; `Open key nonce sealed` is the plaintext, or `none` when
authentication fails. -/
structure AEAD where
  Seal : List Byte → List Byte → List Byte → List Byte
  Open : List Byte → List Byte → List Byte → Option (List Byte)

/-- The check of `aes.NewCipher`: the key is 16, 24 or 32 bytes long. -/
def NewCipher (key : List Byte) : Except Error Unit :=
  if key.length = 16 ∨ key.length = 24 ∨ key.length = 32 then Except.ok ()
  else Except.error (Error.keySize key.length)

/-- The value of `gcm.NonceSize()` for the standard GCM of `cipher.NewGCM`. -/
def nonceSize : Nat := 12

/-- The tag length of the standard GCM. -/
def tagSize : Nat := 16

/-- Model of `io.ReadFull(rand.Reader, buf)` for a buffer of `n` bytes, the
reader having `rand` to give. -/
def ReadFull (rand : List Byte) (n : Nat) : Except Error (List Byte) :=
  if n ≤ rand.length then Except.ok (rand.take n) else Except.error Error.randRead

/-- The function `encrypt` (main.go 36-57); `rand` is what `rand.Reader`
supplies. -/
def encrypt (A : AEAD) (rand : List Byte) (plaintext key : List Byte) :
    Except Error (List Byte) :=
  match NewCipher key with
  | Except.error err => Except.error err
  | Except.ok _ =>
    match ReadFull rand nonceSize with
    | Except.error err => Except.error err
    | Except.ok nonce =>
      let ciphertext := nonce ++ A.Seal key nonce plaintext
      Except.ok (EncodeToString ciphertext)

/-- What a call of `decrypt` did: the value it returned and, as a log, the
`(nonce, ciphertextBytes)` arguments of every `gcm.Open` call it made. -/
structure Decrypted where
  result : Except Error (List Byte)
  opened : List (List Byte × List Byte)
  deriving DecidableEq

/-- The function `decrypt` (main.go 59-87). The slice expressions
`data[:nonceSize]` and `data[nonceSize:]` panic when out of bounds. -/
def decrypt (A : AEAD) (ciphertext key : List Byte) : Decrypted :=
  match DecodeString ciphertext with
  | Except.error err => ⟨Except.error err, []⟩
  | Except.ok data =>
    match NewCipher key with
    | Except.error err => ⟨Except.error err, []⟩
    | Except.ok _ =>
      if data.length < nonceSize then ⟨Except.error Error.tooShort, []⟩
      else
        match sliceStr data 0 nonceSize, sliceStr data nonceSize data.length with
        | some nonce, some ciphertextBytes =>
          match A.Open key nonce ciphertextBytes with
          | none => ⟨Except.error Error.openFailed, [(nonce, ciphertextBytes)]⟩
          | some plaintext => ⟨Except.ok plaintext, [(nonce, ciphertextBytes)]⟩
        | _, _ => ⟨Except.error Error.sliceBounds, []⟩

/-- A stand-in AEAD for concrete instances: the "ciphertext" is the plaintext
and the 16-byte "tag" is the first half of the key, so that opening under
another key fails. It only serves to run the code on examples. -/
def demoAEAD : AEAD where
  Seal := fun key _ plaintext => plaintext ++ key.take tagSize
  Open := fun key _ sealed =>
    if tagSize ≤ sealed.length ∧ sealed.drop (sealed.length - tagSize) = key.take tagSize then
      some (sealed.take (sealed.length - tagSize))
    else none

/-- Specification of "valid standard padded base64" after line breaks are
removed: quanta of four alphabet characters, the last of which may end in one
or two `'='`. -/
def wellPadded : List Byte → Bool
  | [] => true
  | [a, b, c, d] =>
    decide (a ∈ encodeStd) && decide (b ∈ encodeStd) &&
      ((decide (c ∈ encodeStd) && (decide (d ∈ encodeStd) || decide (d = padChar))) ||
        (decide (c = padChar) && decide (d = padChar)))
  | a :: b :: c :: d :: rest =>
    decide (a ∈ encodeStd) && decide (b ∈ encodeStd) && decide (c ∈ encodeStd) &&
      decide (d ∈ encodeStd) && wellPadded rest
  | _ => false

/-- The text without its `'\r'` and `'\n'` bytes. -/
def stripNewlines (s : List Byte) : List Byte :=
  s.filter (fun c => !(decide (c = newline) || decide (c = carriage)))

/-- Specification of the texts `base64.StdEncoding` accepts: `'\r'` and `'\n'`
are ignored, what remains is padded base64. -/
def validBase64 (s : List Byte) : Bool := wellPadded (stripNewlines s)

/-- The recogniser of padded base64 one character at a time, `j` characters
of the current quantum already read. It links `decodeLoop` to `wellPadded`. -/
def acceptFrom : Nat → List Byte → Bool
  | j, [] => decide (j = 0)
  | j, c :: t =>
    if c ∈ encodeStd then acceptFrom ((j + 1) % 4) t
    else if c = padChar then
      (decide (j = 2) && decide (t = [padChar])) || (decide (j = 3) && decide (t = []))
    else false

/-! ## The two event handlers of `main` -/

/-- One line appended to the message view by
`messageView.SetText(messageView.GetText(true) + line)`. -/
inductive ViewLine where
  /-- `"[red]Failed to decrypt message: %v\n"` with the error (main.go 289). -/
  | decryptFailed (err : Error)
  /-- `"[yellow][%s][white] %s: %s\n"` with the timestamp, the sender and
  `formatMessageWithURLs` of the message text (main.go 319, 365). -/
  | chat (r : ChatRecord)
  /-- `"[red]Error encrypting message: %v\n"` with the error (main.go 346). -/
  | encryptError (err : Error)
  /-- `"[gray]Broadcasting encrypted message\n"` (main.go 354). -/
  | broadcasting
  /-- `"[red]Error broadcasting: %v\n"` with the error (main.go 360). -/
  | broadcastError (err : Error)
  deriving DecidableEq, Repr

/-- The values fixed by `main` before the handlers run: `*username`, `*debug`
and `key`, the result of `deriveKey(*password)`. -/
structure Session where
  username : List Byte
  debug : Bool
  key : List Byte

/-- The state the handlers act on. `messageView`, `inputField` and `stdout` are
what the program shows; `sendWrites` lists the datagrams passed to
`sendConn.Write`; `encryptCalls` and `decryptCalls` log the text passed to each
call of `encrypt` and `decrypt`. -/
structure World where
  messageView : List ViewLine
  inputField : List Byte
  stdout : List Error
  sendWrites : List (List Byte)
  encryptCalls : List (List Byte)
  decryptCalls : List (List Byte)
  deriving DecidableEq

/-- Outcome of one `receiveConn.ReadFromUDP(buffer)`. -/
inductive ReadResult where
  | datagram (bytes : List Byte)
  | failed (err : Error)

/-- One iteration of the listener loop (main.go 273-325). A datagram longer
than the 1024-byte buffer is cut to the buffer's size by the read. -/
def listenerStep (A : AEAD) (s : Session) (w : World) : ReadResult → World
  | ReadResult.failed err => { w with stdout := w.stdout ++ [err] }
  | ReadResult.datagram bytes =>
    let message := bytes.take readBufferSize
    if HasPrefix message (asc "CHAT:") then
      let encrypted := message.drop 5
      let w1 := { w with decryptCalls := w.decryptCalls ++ [encrypted] }
      match (decrypt A encrypted s.key).result with
      | Except.error err =>
        if s.debug then { w1 with messageView := w1.messageView ++ [ViewLine.decryptFailed err] }
        else w1
      | Except.ok decrypted =>
        match parseChat s.username decrypted with
        | some r => { w1 with messageView := w1.messageView ++ [ViewLine.chat r] }
        | none => w1
    else w

/-- The listener goroutine over the reads it is given, in order: `for { ... }`
has no exit, every iteration is followed by the next read. -/
def listener (A : AEAD) (s : Session) : List ReadResult → World → World
  | [], w => w
  | r :: rest, w => listener A s rest (listenerStep A s w r)

/-- Wall-clock time of day. -/
structure Clock where
  hour : Nat
  minute : Nat
  second : Nat

/-- Two decimal digits, zero padded. -/
def twoDigits (n : Nat) : List Byte := [Fin.ofNat (48 + n / 10 % 10), Fin.ofNat (48 + n % 10)]

/-- Model of `time.Now().Format("15:04:05")`. -/
def formatClock (t : Clock) : List Byte :=
  twoDigits t.hour ++ colon :: (twoDigits t.minute ++ colon :: twoDigits t.second)

/-- What the environment supplies to one run of the done-callback: the clock,
the bytes of `rand.Reader`, and the error of `sendConn.Write`, if any. -/
structure SendEnv where
  now : Clock
  rand : List Byte
  writeErr : Option Error

/-- The callback `inputField.SetDoneFunc` (main.go 329-370); `enter` tells
whether the key was `tcell.KeyEnter`. -/
def onDone (A : AEAD) (s : Session) (env : SendEnv) (enter : Bool) (w : World) : World :=
  if !enter then w
  else
    let message := w.inputField
    if message = [] then w
    else
      let timestamp := formatClock env.now
      let plaintext := framePlaintext s.username timestamp message
      let w1 := { w with encryptCalls := w.encryptCalls ++ [plaintext] }
      match encrypt A env.rand plaintext s.key with
      | Except.error err =>
        { w1 with messageView := w1.messageView ++ [ViewLine.encryptError err] }
      | Except.ok encrypted =>
        let broadcastMsg := asc "CHAT:" ++ encrypted
        let w2 :=
          if s.debug then { w1 with messageView := w1.messageView ++ [ViewLine.broadcasting] }
          else w1
        let w3 := { w2 with sendWrites := w2.sendWrites ++ [broadcastMsg] }
        let w4 :=
          match env.writeErr with
          | some err => { w3 with messageView := w3.messageView ++ [ViewLine.broadcastError err] }
          | none => w3
        { w4 with
          messageView := w4.messageView ++ [ViewLine.chat ⟨s.username, timestamp, message⟩]
          inputField := [] }

/-- The empty state at start-up. -/
def World.start : World := ⟨[], [], [], [], [], []⟩

/-- The claim that only the first two `':'` are delimiters, as the
specification words it: the sender is the text before the first `':'`, the
timestamp the text between the first and the second, the body all the rest. -/
def ThreePartSplit (username decrypted : List Byte) : Prop :=
  ∀ r, parseChat username decrypted = some r →
    r.senderName = beforeColon decrypted ∧
    r.timestamp = beforeColon (afterColon decrypted) ∧
    r.messageText = afterColon (afterColon decrypted)

/-! ## Concrete values for the instances -/

/-- A 32-byte key. -/
def demoKey : List Byte := List.replicate 32 1

/-- Another 32-byte key. -/
def otherKey : List Byte := List.replicate 32 2

/-- Twelve bytes for the random source to give. -/
def demoNonce : List Byte := List.replicate 12 7

/-- The peer "alice", debug off. -/
def alice : Session := ⟨asc "alice", false, demoKey⟩

/-- The peer "bob" with alice's key, debug off. -/
def bob : Session := ⟨asc "bob", false, demoKey⟩

/-- The peer "eve" with another key, debug on. -/
def eve : Session := ⟨asc "eve", true, otherKey⟩

/-- The datagram alice sends for the line "hi bob" at 12:34:56. -/
def aliceFrame : List Byte :=
  asc "CHAT:" ++ EncodeToString
    (demoNonce ++ demoAEAD.Seal demoKey demoNonce (asc "alice:12:34:56:hi bob"))

/-- The datagram carol sends for the line "url: https://x/y:z" at 01:02:03. -/
def carolFrame : List Byte :=
  asc "CHAT:" ++ EncodeToString
    (demoNonce ++ demoAEAD.Seal demoKey demoNonce
      (framePlaintext (asc "carol") (asc "01:02:03") (asc "url: https://x/y:z")))

/-- A typed line of 885 bytes; with the username "alice" and a timestamp the
plaintext is 900 bytes long. -/
def oversizeLine : List Byte := List.replicate 885 97

/-- A plaintext of exactly 768 bytes, the documented safe input size. -/
def fullSizePlaintext : List Byte := List.replicate 768 97

/-! # Theorems -/

/-! ## splitMessage -/

theorem wrapInt_of_range (x : Int) (h0 : -(2 ^ 63) ≤ x) (h1 : x < 2 ^ 63) : wrapInt x = x := by
  unfold wrapInt
  omega

theorem splitLoop_exit (message : List Byte) (chunkSize : Int) (fuel : Nat) (i : Int)
    (chunks : List (List Byte)) (h : ¬ i < (message.length : Int)) :
    splitLoop message chunkSize (fuel + 1) i chunks = Run.done chunks := by
  rw [splitLoop, if_neg h]

theorem splitLoop_step (message : List Byte) (chunkSize : Int) (fuel : Nat) (i : Int)
    (chunks : List (List Byte)) (c : List Byte) (h : i < (message.length : Int))
    (hc : sliceStr message i
      (if wrapInt (i + chunkSize) > (message.length : Int) then (message.length : Int)
        else wrapInt (i + chunkSize)) = some c) :
    splitLoop message chunkSize (fuel + 1) i chunks
      = splitLoop message chunkSize fuel (wrapInt (i + chunkSize)) (chunks ++ [c]) := by
  rw [splitLoop, if_pos h]
  simp only [hc]

theorem sliceStr_nat (s : List Byte) (a b : Nat) (hab : a ≤ b) (hb : b ≤ s.length) :
    sliceStr s (a : Int) (b : Int) = some ((s.take b).drop a) := by
  unfold sliceStr
  have h : (0 : Int) ≤ (a : Int) ∧ (a : Int) ≤ (b : Int) ∧ (b : Int) ≤ (s.length : Int) := by
    omega
  rw [if_pos h]
  simp

theorem ceil_exact (k n : Nat) (hn : 0 < n) : (k * n + n - 1) / n = k := by
  have h : k * n + n - 1 = (n - 1) + n * k := by
    rw [Nat.mul_comm]; omega
  rw [h, Nat.add_mul_div_left _ _ hn, Nat.div_eq_of_lt (by omega)]
  simp

theorem ceil_inexact (k n len : Nat) (hn : 0 < n) (h1 : k * n < len) (h2 : len < k * n + n) :
    (len + n - 1) / n = k + 1 := by
  obtain ⟨r, hr⟩ : ∃ r, len = k * n + r := ⟨len - k * n, by omega⟩
  have h : len + n - 1 = (r - 1) + n * (k + 1) := by
    rw [Nat.mul_add, Nat.mul_comm n k]; omega
  rw [h, Nat.add_mul_div_left _ _ hn, Nat.div_eq_of_lt (by omega)]
  simp

theorem splitLoop_spec (message : List Byte) (n : Nat) (hn : 0 < n) (hn63 : (n : Int) < 2 ^ 63)
    (hlen : message.length ≤ 2 ^ 62) :
    ∀ (fuel i : Nat) (acc : List (List Byte)),
      i = acc.length * n → acc.flatten = message.take i → (∀ c ∈ acc, c.length = n) →
      i ≤ message.length → message.length - i < fuel →
      ∃ chunks, splitLoop message (n : Int) fuel (i : Int) acc = Run.done chunks ∧
        ChunksOf message n chunks := by
  intro fuel
  induction fuel with
  | zero => intro i acc _ _ _ _ hf; omega
  | succ fuel ih =>
    intro i acc hi hjoin hall hile hfuel
    have hbig : i = 0 ∨ n ≤ i := by
      rcases Nat.eq_zero_or_pos acc.length with h | h
      · left; rw [hi, h]; simp
      · right; rw [hi]; exact Nat.le_mul_of_pos_left n h
    rcases Nat.lt_or_ge i message.length with hlt | hge
    · -- the loop body runs
      have hwrap : wrapInt ((i : Int) + (n : Int)) = ((i + n : Nat) : Int) := by
        rw [wrapInt_of_range] <;> push_cast <;> omega
      have h1 : ((i : Int) < (message.length : Int)) := by omega
      rcases Nat.lt_or_ge message.length (i + n) with hover | hfit
      · -- last, short chunk
        have hfuel2 : ∃ f, fuel = f + 1 := ⟨fuel - 1, by omega⟩
        obtain ⟨f, rfl⟩ := hfuel2
        refine ⟨acc ++ [message.drop i], ?_, ?_⟩
        · have h2 : (((i + n : Nat) : Int) > (message.length : Int)) := by omega
          rw [splitLoop_step message n (f + 1) i acc (message.drop i) h1
            (by rw [hwrap, if_pos h2, sliceStr_nat message i message.length (by omega) (le_refl _),
                  List.take_length])]
          rw [hwrap]
          exact splitLoop_exit message n f _ _ (by omega)
        · refine ⟨?_, ?_, ?_, ?_⟩
          · rw [List.length_append, List.length_singleton]
            rw [ceil_inexact acc.length n message.length hn (by omega) (by omega)]
          · rw [List.flatten_append, hjoin]; simp
          · intro c hc
            rw [List.mem_append, List.mem_singleton] at hc
            rcases hc with hc | hc
            · rw [hall c hc]; exact ⟨hn, le_refl _⟩
            · subst hc; rw [List.length_drop]; omega
          · intro j hj
            rw [List.length_append, List.length_singleton] at hj
            rw [List.getElem_append_left (by omega)]
            exact hall _ (List.getElem_mem _)
      · -- a full chunk
        have h2 : ¬ (((i + n : Nat) : Int) > (message.length : Int)) := by omega
        have hstep := ih (i + n) (acc ++ [(message.take (i + n)).drop i])
          (by rw [List.length_append, List.length_singleton, Nat.add_mul, ← hi]; omega)
          (by
            rw [List.flatten_append, hjoin]
            simp only [List.flatten_cons, List.flatten_nil, List.append_nil]
            conv_rhs => rw [← List.take_append_drop i (message.take (i + n))]
            rw [List.take_take, Nat.min_eq_left (by omega)])
          (by
            intro c hc'
            rw [List.mem_append, List.mem_singleton] at hc'
            rcases hc' with hc' | hc'
            · exact hall c hc'
            · subst hc'; rw [List.length_drop, List.length_take]; omega)
          hfit (by omega)
        obtain ⟨chunks, hrun, hprop⟩ := hstep
        refine ⟨chunks, ?_, hprop⟩
        rw [splitLoop_step message n fuel i acc ((message.take (i + n)).drop i) h1
            (by rw [hwrap, if_neg h2, sliceStr_nat message i (i + n) (by omega) hfit])]
        rw [hwrap]
        exact hrun
    · -- the loop exits
      have hieq : i = message.length := by omega
      refine ⟨acc, splitLoop_exit message n fuel _ _ (by omega), ?_, ?_, ?_, ?_⟩
      · rw [← hieq, hi, ceil_exact _ _ hn]
      · rw [hjoin, hieq, List.take_length]
      · intro c hc; rw [hall c hc]; exact ⟨hn, le_refl _⟩
      · intro j hj; exact hall _ (List.getElem_mem _)


/-- C10: for every message (of a length a Go string can have on a 64-bit
machine, at most 2^62 bytes) and every `int` chunkSize > 0,
`splitMessage(message, chunkSize)` terminates without a panic and returns
`ceil(len(message) / chunkSize)` chunks whose concatenation in order is
`message`; every chunk is non-empty and at most chunkSize bytes long, every
chunk but the last is exactly chunkSize bytes long, and the empty message
yields no chunks. -/
theorem splitMessage_chunks (message : List Byte) (chunkSize : Int)
    (hpos : 0 < chunkSize) (hint : chunkSize < 2 ^ 63) (hlen : message.length ≤ 2 ^ 62) :
    ∃ chunks, splitMessage message chunkSize = Run.done chunks ∧
      chunks.length = (message.length + chunkSize.toNat - 1) / chunkSize.toNat ∧
      chunks.flatten = message ∧
      (∀ c ∈ chunks, 0 < c.length ∧ (c.length : Int) ≤ chunkSize) ∧
      (∀ j (h : j + 1 < chunks.length), ((chunks[j]).length : Int) = chunkSize) ∧
      (message = [] → chunks = []) := by
  obtain ⟨n, rfl⟩ : ∃ n : Nat, chunkSize = (n : Int) := ⟨chunkSize.toNat, by omega⟩
  have hn : 0 < n := by omega
  obtain ⟨chunks, hrun, hcount, hcat, hsize, hfull⟩ :=
    splitLoop_spec message n hn hint hlen (message.length + 1) 0 [] (by simp) (by simp)
      (by simp) (Nat.zero_le _) (by omega)
  refine ⟨chunks, hrun, ?_, hcat, ?_, ?_, ?_⟩
  · simpa using hcount
  · intro c hc
    have := hsize c hc
    omega
  · intro j hj
    have := hfull j hj
    omega
  · intro hnil
    subst hnil
    have h0 : chunks.length = 0 := by
      rw [hcount]
      simp only [List.length_nil, Nat.zero_add]
      exact Nat.div_eq_of_lt (by omega)
    exact List.length_eq_zero.mp h0

/-- C10 at a concrete input: "abcdefgh" in chunks of 3. -/
theorem splitMessage_chunks_witness :
    (0 : Int) < 3 ∧ (3 : Int) < 2 ^ 63 ∧ (asc "abcdefgh").length ≤ 2 ^ 62 ∧
    ∃ chunks, splitMessage (asc "abcdefgh") 3 = Run.done chunks ∧
      chunks.length = ((asc "abcdefgh").length + (3 : Int).toNat - 1) / (3 : Int).toNat ∧
      chunks.flatten = asc "abcdefgh" ∧
      (∀ c ∈ chunks, 0 < c.length ∧ (c.length : Int) ≤ 3) ∧
      (∀ j (h : j + 1 < chunks.length), ((chunks[j]).length : Int) = 3) ∧
      (asc "abcdefgh" = [] → chunks = []) :=
  ⟨by decide, by decide, by decide,
    splitMessage_chunks (asc "abcdefgh") 3 (by decide) (by decide) (by decide)⟩

/-! ## Splitting and joining -/

theorem Index_eq_none (sep : Byte) : ∀ s : List Byte, sep ∉ s → Index s sep = none
  | [], _ => rfl
  | c :: cs, h => by
    have hc : c ≠ sep := fun e => h (e ▸ List.mem_cons_self _ _)
    have hcs : sep ∉ cs := fun e => h (List.mem_cons_of_mem _ e)
    simp [Index, hc, Index_eq_none sep cs hcs]

theorem Index_append (sep : Byte) (b : List Byte) :
    ∀ a : List Byte, sep ∉ a → Index (a ++ sep :: b) sep = some a.length
  | [], _ => by simp [Index]
  | c :: cs, h => by
    have hc : c ≠ sep := fun e => h (e ▸ List.mem_cons_self _ _)
    have hcs : sep ∉ cs := fun e => h (List.mem_cons_of_mem _ e)
    simp [Index, hc, Index_append sep b cs hcs]

theorem Index_some (sep : Byte) :
    ∀ (s : List Byte) (m : Nat), Index s sep = some m →
      sep ∉ s.take m ∧ s = s.take m ++ sep :: s.drop (m + 1)
  | [], m, h => by simp [Index] at h
  | c :: cs, m, h => by
    by_cases hc : c = sep
    · simp [Index, hc] at h
      subst h; subst hc
      simp
    · simp only [Index, hc, if_false, Option.map_eq_some'] at h
      obtain ⟨m', hm', rfl⟩ := h
      obtain ⟨h1, h2⟩ := Index_some sep cs m' hm'
      refine ⟨?_, ?_⟩
      · simp only [List.take_succ_cons, List.mem_cons, not_or]
        exact ⟨fun e => hc e.symm, h1⟩
      · simp only [List.take_succ_cons, List.drop_succ_cons, List.cons_append]
        rw [← h2]

theorem mem_of_Index_none (sep : Byte) (s : List Byte) (h : Index s sep = none) : sep ∉ s := by
  induction s with
  | nil => simp
  | cons c cs ih =>
    by_cases hc : c = sep
    · simp [Index, hc] at h
    · simp only [Index, hc, if_false, Option.map_eq_none'] at h
      simp only [List.mem_cons, not_or]
      exact ⟨fun e => hc e.symm, ih h⟩

/-- A string either holds no separator or is cut at its first one. -/
theorem first_cut (sep : Byte) (s : List Byte) :
    sep ∉ s ∨ ∃ a b, s = a ++ sep :: b ∧ sep ∉ a := by
  cases h : Index s sep with
  | none => exact Or.inl (mem_of_Index_none sep s h)
  | some m =>
    obtain ⟨h1, h2⟩ := Index_some sep s m h
    exact Or.inr ⟨_, _, h2, h1⟩

theorem Contains_false (sep : Byte) (s : List Byte) (h : sep ∉ s) : Contains s sep = false := by
  simp [Contains, Index_eq_none sep s h]

theorem genSplitLoop_whole (sep : Byte) (k : Nat) (s : List Byte) (h : sep ∉ s) :
    genSplitLoop sep k s = [s] := by
  cases k with
  | zero => rfl
  | succ k => simp [genSplitLoop, Index_eq_none sep s h]

theorem genSplitLoop_cut (sep : Byte) (k : Nat) (a b : List Byte) (h : sep ∉ a) :
    genSplitLoop sep (k + 1) (a ++ sep :: b) = a :: genSplitLoop sep k b := by
  simp [genSplitLoop, Index_append sep b a h]

theorem Count_whole (sep : Byte) (s : List Byte) (h : sep ∉ s) : Count s sep = 0 := by
  simp [Count, List.count_eq_zero, h]

theorem Count_cut (sep : Byte) (a b : List Byte) (h : sep ∉ a) :
    Count (a ++ sep :: b) sep = Count b sep + 1 := by
  simp [Count, List.count_append, List.count_eq_zero.mpr h]

theorem Count_le_length (sep : Byte) (s : List Byte) : Count s sep ≤ s.length :=
  List.count_le_length _ _

theorem Split_eq (sep : Byte) (s : List Byte) :
    Split s sep = genSplitLoop sep (Count s sep) s := by
  have h := Count_le_length sep s
  have h1 : ¬ (Count s sep + 1 > s.length + 1) := by omega
  simp [Split, genSplit, h1]

theorem Split_whole (sep : Byte) (s : List Byte) (h : sep ∉ s) : Split s sep = [s] := by
  rw [Split_eq, genSplitLoop_whole sep _ s h]

theorem Split_cut (sep : Byte) (a b : List Byte) (h : sep ∉ a) :
    Split (a ++ sep :: b) sep = a :: Split b sep := by
  rw [Split_eq, Count_cut sep a b h, genSplitLoop_cut sep _ a b h, Split_eq]

theorem Split_ne_nil (sep : Byte) (s : List Byte) : Split s sep ≠ [] := by
  rcases first_cut sep s with h | ⟨a, b, rfl, h⟩
  · rw [Split_whole sep s h]; simp
  · rw [Split_cut sep a b h]; simp

theorem Join_cons (sep : Byte) (a : List Byte) (rest : List (List Byte)) (h : rest ≠ []) :
    Join (a :: rest) sep = a ++ sep :: Join rest sep := by
  cases rest with
  | nil => exact absurd rfl h
  | cons b rest => rfl

/-- Joining what `strings.Split` produced gives the string back. -/
theorem Join_Split (sep : Byte) : ∀ (n : Nat) (s : List Byte), s.length ≤ n →
    Join (Split s sep) sep = s := by
  intro n
  induction n with
  | zero =>
    intro s hs
    have : s = [] := List.length_eq_zero.mp (by omega)
    subst this
    rfl
  | succ n ih =>
    intro s hs
    rcases first_cut sep s with h | ⟨a, b, rfl, h⟩
    · rw [Split_whole sep s h]; rfl
    · rw [Split_cut sep a b h, Join_cons sep a _ (Split_ne_nil sep b), ih b]
      simp only [List.length_append, List.length_cons] at hs
      omega

/-- The three shapes of `strings.SplitN(s, ":", 3)`. -/
theorem SplitN3_cases (sep : Byte) (s : List Byte) :
    (sep ∉ s ∧ SplitN s sep 3 = [s]) ∨
    (∃ a b, s = a ++ sep :: b ∧ sep ∉ a ∧ sep ∉ b ∧ SplitN s sep 3 = [a, b]) ∨
    (∃ a b c, s = a ++ sep :: (b ++ sep :: c) ∧ sep ∉ a ∧ sep ∉ b ∧
      SplitN s sep 3 = [a, b, c]) := by
  have hgen : SplitN s sep 3
      = genSplitLoop sep ((if 3 > s.length + 1 then s.length + 1 else 3) - 1) s := by
    simp [SplitN, genSplit]
  rcases first_cut sep s with h | ⟨a, b, rfl, ha⟩
  · exact Or.inl ⟨h, by rw [hgen, genSplitLoop_whole sep _ s h]⟩
  · right
    rcases first_cut sep b with hb | ⟨b1, c, rfl, hb1⟩
    · left
      refine ⟨a, b, rfl, ha, hb, ?_⟩
      rw [hgen]
      have hk : ∃ k, (if 3 > (a ++ sep :: b).length + 1 then (a ++ sep :: b).length + 1 else 3) - 1
          = k + 1 := by
        simp only [List.length_append, List.length_cons]
        split
        · exact ⟨a.length + b.length, by omega⟩
        · exact ⟨1, rfl⟩
      obtain ⟨k, hk⟩ := hk
      rw [hk, genSplitLoop_cut sep k a b ha, genSplitLoop_whole sep k b hb]
    · right
      refine ⟨a, b1, c, rfl, ha, hb1, ?_⟩
      rw [hgen]
      have hk : (if 3 > (a ++ sep :: (b1 ++ sep :: c)).length + 1
          then (a ++ sep :: (b1 ++ sep :: c)).length + 1 else 3) - 1 = 2 := by
        simp only [List.length_append, List.length_cons]
        split <;> omega
      rw [hk, genSplitLoop_cut sep 1 a _ ha, genSplitLoop_cut sep 0 b1 c hb1]
      rfl

theorem beforeColon_cut (a b : List Byte) (h : colon ∉ a) :
    beforeColon (a ++ colon :: b) = a := by
  induction a with
  | nil => simp [beforeColon]
  | cons c cs ih =>
    have hc : c ≠ colon := fun e => h (e ▸ List.mem_cons_self _ _)
    have hcs : colon ∉ cs := fun e => h (List.mem_cons_of_mem _ e)
    simp [beforeColon, hc, ih hcs]

theorem beforeColon_whole (s : List Byte) (h : colon ∉ s) : beforeColon s = s := by
  induction s with
  | nil => rfl
  | cons c cs ih =>
    have hc : c ≠ colon := fun e => h (e ▸ List.mem_cons_self _ _)
    have hcs : colon ∉ cs := fun e => h (List.mem_cons_of_mem _ e)
    simp [beforeColon, hc, ih hcs]

theorem afterColon_cut (a b : List Byte) (h : colon ∉ a) :
    afterColon (a ++ colon :: b) = b := by
  induction a with
  | nil => simp [afterColon]
  | cons c cs ih =>
    have hc : c ≠ colon := fun e => h (e ▸ List.mem_cons_self _ _)
    have hcs : colon ∉ cs := fun e => h (List.mem_cons_of_mem _ e)
    simp [afterColon, hc, ih hcs]

/-! ## base64: decoding inverts encoding -/

theorem decodeMap_encodeChar_fin : ∀ v : Fin 64, decodeMap (encodeChar v.val) = v.val := by
  decide

theorem decodeMap_encodeChar (v : Nat) : decodeMap (encodeChar v) = v % 64 := by
  have h := decodeMap_encodeChar_fin ⟨v % 64, Nat.mod_lt _ (by decide)⟩
  simp only [encodeChar] at h ⊢
  rw [Nat.mod_mod] at h
  exact h

theorem decodeMap_encodeChar_ne (v : Nat) : decodeMap (encodeChar v) ≠ 255 := by
  rw [decodeMap_encodeChar]
  omega

theorem decodeMap_padChar : decodeMap padChar = 255 := by decide

theorem decodeMap_newline : decodeMap newline = 255 := by decide

theorem decodeMap_carriage : decodeMap carriage = 255 := by decide

/-- Reading an alphabet character while the quantum is not yet full. -/
theorem decodeLoop_read (c : Byte) (rest : List Byte) (si : Nat) (dbuf : List Nat)
    (hc : decodeMap c ≠ 255) (hj : dbuf.length < 3) :
    decodeLoop (c :: rest) si dbuf = decodeLoop rest (si + 1) (dbuf ++ [decodeMap c]) := by
  rcases dbuf with _ | ⟨d0, _ | ⟨d1, _ | ⟨d2, _ | ⟨d3, t⟩⟩⟩⟩
  · simp [decodeLoop, hc]
  · simp [decodeLoop, hc]
  · simp [decodeLoop, hc]
  · simp at hj
  · simp only [List.length_cons] at hj
    omega

/-- Reading the fourth alphabet character of a quantum. -/
theorem decodeLoop_full (c : Byte) (rest : List Byte) (si d0 d1 d2 : Nat)
    (hc : decodeMap c ≠ 255) :
    decodeLoop (c :: rest) si [d0, d1, d2] =
      match decodeLoop rest (si + 1) [] with
      | Except.ok out => Except.ok (quantumBytes d0 d1 d2 (decodeMap c) ++ out)
      | Except.error e => Except.error e := by
  simp [decodeLoop, hc]

theorem quantumBytes_three (a b c : Byte) :
    quantumBytes ((a.val * 65536 + b.val * 256 + c.val) / 262144 % 64)
      ((a.val * 65536 + b.val * 256 + c.val) / 4096 % 64)
      ((a.val * 65536 + b.val * 256 + c.val) / 64 % 64)
      ((a.val * 65536 + b.val * 256 + c.val) % 64) = [a, b, c] := by
  have ha := a.isLt
  have hb := b.isLt
  have hc := c.isLt
  simp only [quantumBytes, List.cons.injEq, and_true]
  refine ⟨?_, ?_, ?_⟩ <;> apply Fin.ext <;> simp only [Fin.ofNat, Fin.val_mk] <;> omega

theorem quantumBytes_two (a b : Byte) :
    (quantumBytes ((a.val * 65536 + b.val * 256) / 262144 % 64)
      ((a.val * 65536 + b.val * 256) / 4096 % 64)
      ((a.val * 65536 + b.val * 256) / 64 % 64) 0).take 2 = [a, b] := by
  have ha := a.isLt
  have hb := b.isLt
  simp only [quantumBytes, List.take, List.cons.injEq, and_true]
  refine ⟨?_, ?_⟩ <;> apply Fin.ext <;> simp only [Fin.ofNat, Fin.val_mk] <;> omega

theorem quantumBytes_one (a : Byte) :
    (quantumBytes ((a.val * 65536) / 262144 % 64) ((a.val * 65536) / 4096 % 64) 0 0).take 1
      = [a] := by
  have ha := a.isLt
  simp only [quantumBytes, List.take, List.cons.injEq, and_true]
  apply Fin.ext
  simp only [Fin.ofNat, Fin.val_mk]
  omega

/-- Decoding what `EncodeToString` produced gives the bytes back, from any
input offset. -/
theorem decodeLoop_EncodeToString : ∀ (m : List Byte) (si : Nat),
    decodeLoop (EncodeToString m) si [] = Except.ok m
  | [], si => by simp [EncodeToString, decodeLoop]
  | [a], si => by
    simp only [EncodeToString]
    rw [decodeLoop_read _ _ _ _ (decodeMap_encodeChar_ne _) (by simp),
      decodeLoop_read _ _ _ _ (decodeMap_encodeChar_ne _) (by simp)]
    simp only [List.nil_append, List.cons_append, decodeMap_encodeChar]
    simp only [decodeLoop, decodeMap_padChar, skipNewlines]
    simp [padChar, newline, carriage, quantumBytes_one, skipNewlines]
  | [a, b], si => by
    simp only [EncodeToString]
    rw [decodeLoop_read _ _ _ _ (decodeMap_encodeChar_ne _) (by simp),
      decodeLoop_read _ _ _ _ (decodeMap_encodeChar_ne _) (by simp),
      decodeLoop_read _ _ _ _ (decodeMap_encodeChar_ne _) (by simp)]
    simp only [List.nil_append, List.cons_append, decodeMap_encodeChar]
    simp only [decodeLoop, decodeMap_padChar, skipNewlines]
    simp [padChar, newline, carriage, quantumBytes_two]
  | a :: b :: c :: rest, si => by
    simp only [EncodeToString]
    rw [decodeLoop_read _ _ _ _ (decodeMap_encodeChar_ne _) (by simp),
      decodeLoop_read _ _ _ _ (decodeMap_encodeChar_ne _) (by simp),
      decodeLoop_read _ _ _ _ (decodeMap_encodeChar_ne _) (by simp)]
    simp only [List.nil_append, List.cons_append]
    rw [decodeLoop_full _ _ _ _ _ _ (decodeMap_encodeChar_ne _),
      decodeLoop_EncodeToString rest (si + 1 + 1 + 1 + 1)]
    simp only [decodeMap_encodeChar]
    rw [quantumBytes_three]
    rfl

theorem DecodeString_EncodeToString (m : List Byte) :
    DecodeString (EncodeToString m) = Except.ok m :=
  decodeLoop_EncodeToString m 0

/-- The length of the encoding, `4 * ceil(n / 3)`. -/
theorem EncodeToString_length : ∀ m : List Byte,
    (EncodeToString m).length = 4 * ((m.length + 2) / 3)
  | [] => rfl
  | [_] => by simp [EncodeToString]
  | [_, _] => by simp [EncodeToString]
  | a :: b :: c :: rest => by
    simp only [EncodeToString, List.length_cons, EncodeToString_length rest]
    omega

/-! ## The cipher envelope -/

theorem NewCipher_32 (key : List Byte) (hk : key.length = 32) : NewCipher key = Except.ok () := by
  simp [NewCipher, hk]

theorem demoAEAD_open_seal (k n m : List Byte) (hk : k.length = 32) :
    demoAEAD.Open k n (demoAEAD.Seal k n m) = some m := by
  have ht : (k.take tagSize).length = 16 := by
    rw [List.length_take, hk]
    rfl
  simp only [demoAEAD, List.length_append, ht]
  have h1 : m.length + 16 - tagSize = m.length := by
    simp [tagSize]
  rw [h1, List.drop_left, List.take_left, if_pos ⟨by simp [tagSize], rfl⟩]

/-- The envelope `encrypt` returns when the key is 32 bytes long and the
reader supplies the nonce. -/
theorem encrypt_eq (A : AEAD) (rand m k : List Byte) (hk : k.length = 32)
    (hr : 12 ≤ rand.length) :
    encrypt A rand m k
      = Except.ok (EncodeToString (rand.take 12 ++ A.Seal k (rand.take 12) m)) := by
  simp [encrypt, NewCipher_32 k hk, ReadFull, nonceSize, hr]

/-- What `decrypt` does on the encoding of `nonce ‖ sealed`. -/
theorem decrypt_encoded (A : AEAD) (nonce sealed k : List Byte) (hk : k.length = 32)
    (hn : nonce.length = 12) :
    decrypt A (EncodeToString (nonce ++ sealed)) k =
      match A.Open k nonce sealed with
      | none => ⟨Except.error Error.openFailed, [(nonce, sealed)]⟩
      | some plaintext => ⟨Except.ok plaintext, [(nonce, sealed)]⟩ := by
  have h0 : sliceStr (nonce ++ sealed) 0 (nonceSize : Nat) = some nonce := by
    have := sliceStr_nat (nonce ++ sealed) 0 nonceSize (Nat.zero_le _)
      (by simp [nonceSize, hn])
    rw [Nat.cast_zero] at this
    rw [this]
    simp [nonceSize, ← hn]
  have h1 : sliceStr (nonce ++ sealed) (nonceSize : Nat) ((nonce ++ sealed).length : Nat)
      = some sealed := by
    rw [sliceStr_nat (nonce ++ sealed) nonceSize _ (by simp [nonceSize, hn]) (le_refl _),
      List.take_length]
    simp [nonceSize, ← hn]
  have hlen : ¬ (nonce ++ sealed).length < nonceSize := by
    simp [nonceSize, hn]
  simp only [decrypt, DecodeString_EncodeToString, NewCipher_32 k hk, if_neg hlen, h0, h1]

/-- C1: for every plaintext `m` (so for every one of at most 768 bytes), every
32-byte key `k` and every 12-byte nonce that `encrypt` draws from its random
source, `encrypt` succeeds and `decrypt` of its result under `k` succeeds and
returns exactly `m`, for any AEAD whose Open inverts Seal. -/
theorem decrypt_encrypt (A : AEAD)
    (hA : ∀ k n m : List Byte, k.length = 32 → n.length = 12 → A.Open k n (A.Seal k n m) = some m)
    (m k rand : List Byte) (hk : k.length = 32) (hr : 12 ≤ rand.length) :
    ∃ c, encrypt A rand m k = Except.ok c ∧ (decrypt A c k).result = Except.ok m := by
  have hn : (rand.take 12).length = 12 := by
    rw [List.length_take]
    omega
  refine ⟨_, encrypt_eq A rand m k hk hr, ?_⟩
  rw [decrypt_encoded A _ _ k hk hn, hA k _ m hk hn]

/-- C1 on the plaintext "alice:12:34:56:hi bob" with the stand-in AEAD. -/
theorem decrypt_encrypt_witness :
    (List.replicate 32 (1 : Byte)).length = 32 ∧ 12 ≤ (List.replicate 12 (7 : Byte)).length ∧
    ∃ c, encrypt demoAEAD (List.replicate 12 7) (asc "alice:12:34:56:hi bob")
          (List.replicate 32 1) = Except.ok c ∧
      (decrypt demoAEAD c (List.replicate 32 1)).result
        = Except.ok (asc "alice:12:34:56:hi bob") :=
  ⟨by decide, by decide,
    decrypt_encrypt demoAEAD (fun k n m hk _ => demoAEAD_open_seal k n m hk)
      (asc "alice:12:34:56:hi bob") (List.replicate 32 1) (List.replicate 12 7)
      (by decide) (by decide)⟩

/-! ## The message codec -/

/-- The fix-up when the message text has fewer than two `':'`: nothing moves. -/
theorem fixTimestamp_few (t rest : List Byte) (h : Count rest colon < 2) :
    fixTimestamp t rest = (t, rest) := by
  unfold fixTimestamp
  split
  · rcases first_cut colon rest with h0 | ⟨m, b, rfl, hm⟩
    · rw [Split_whole colon rest h0]
    · rw [Count_cut colon m b hm] at h
      have hb : colon ∉ b := by
        rw [← List.count_eq_zero]
        simp only [Count] at h
        omega
      rw [Split_cut colon m b hm, Split_whole colon b hb]
  · rfl

/-- The fix-up when the message text has two or more `':'`: its first two
pieces move into the timestamp. -/
theorem fixTimestamp_many (t m s body : List Byte) (ht : colon ∉ t) (hm : colon ∉ m)
    (hs : colon ∉ s) :
    fixTimestamp t (m ++ colon :: (s ++ colon :: body))
      = (t ++ colon :: (m ++ colon :: s), body) := by
  unfold fixTimestamp
  rw [Contains_false colon t ht, Split_cut colon m _ hm, Split_cut colon s body hs]
  have hjoin := Join_Split colon body.length body (le_refl _)
  cases hsp : Split body colon with
  | nil => exact absurd hsp (Split_ne_nil colon body)
  | cons t2 more =>
    rw [hsp] at hjoin
    simp [hjoin]

theorem isDigit_ne_colon (x : Byte) (h : isDigit x = true) : colon ≠ x := by
  intro hcx
  subst hcx
  revert h
  decide

theorem isClock_parts (timestamp : List Byte) (h : isClock timestamp = true) :
    ∃ hh mm ss : List Byte, timestamp = hh ++ colon :: (mm ++ colon :: ss) ∧
      colon ∉ hh ∧ colon ∉ mm ∧ colon ∉ ss := by
  unfold isClock at h
  split at h
  · rename_i a b p c d q e f
    simp only [Bool.and_eq_true, decide_eq_true_eq] at h
    obtain ⟨⟨⟨⟨⟨⟨⟨ha, hb⟩, hp⟩, hc⟩, hd⟩, hq⟩, he⟩, hf⟩ := h
    subst hp hq
    have ha := isDigit_ne_colon a ha
    have hb := isDigit_ne_colon b hb
    have hc := isDigit_ne_colon c hc
    have hd := isDigit_ne_colon d hd
    have he := isDigit_ne_colon e he
    have hf := isDigit_ne_colon f hf
    refine ⟨[a, b], [c, d], [e, f], rfl, ?_, ?_, ?_⟩ <;> simp [*]
  · simp at h

theorem isDigit_twoDigits (n : Nat) : ∀ x ∈ twoDigits n, isDigit x = true := by
  have h1 : n / 10 % 10 < 10 := Nat.mod_lt _ (by decide)
  have h2 : n % 10 < 10 := Nat.mod_lt _ (by decide)
  intro x hx
  simp only [twoDigits, List.mem_cons, List.mem_singleton, List.not_mem_nil, or_false] at hx
  rcases hx with rfl | rfl <;>
    simp only [isDigit, Fin.ofNat, Bool.and_eq_true, decide_eq_true_eq] <;> omega

/-- The timestamp of the send path, `time.Now().Format("15:04:05")`, always
has the shape `HH:MM:SS`. -/
theorem isClock_formatClock (t : Clock) : isClock (formatClock t) = true := by
  have hh := isDigit_twoDigits t.hour
  have hm := isDigit_twoDigits t.minute
  have hs := isDigit_twoDigits t.second
  simp only [twoDigits, List.mem_cons, List.mem_singleton, List.not_mem_nil, or_false,
    forall_eq_or_imp, forall_eq] at hh hm hs
  simp only [formatClock, twoDigits, List.cons_append, List.nil_append, isClock, hh.1, hh.2,
    hm.1, hm.2, hs.1, hs.2, decide_True, Bool.and_self]

/-- The listener's parse inverts the framing of the send path. -/
theorem parseChat_framePlaintext (username sender timestamp body : List Byte)
    (hs : colon ∉ sender) (ht : isClock timestamp = true) (hu : sender ≠ username) :
    parseChat username (framePlaintext sender timestamp body)
      = some { senderName := sender, timestamp := timestamp, messageText := body } := by
  obtain ⟨hh, mm, ss, rfl, hhh, hmm, hss⟩ := isClock_parts timestamp ht
  have hplain : framePlaintext sender (hh ++ colon :: (mm ++ colon :: ss)) body
      = sender ++ colon :: (hh ++ colon :: (mm ++ colon :: (ss ++ colon :: body))) := by
    simp [framePlaintext]
  rcases SplitN3_cases colon (framePlaintext sender (hh ++ colon :: (mm ++ colon :: ss)) body)
    with ⟨h0, _⟩ | ⟨a, b, h1, ha, hb, _⟩ | ⟨a, b, c, h1, ha, hb, hsplit⟩
  · exact absurd (by rw [hplain]; simp) h0
  · rw [hplain] at h1
    have h2 := congrArg afterColon h1
    rw [afterColon_cut _ _ hs, afterColon_cut _ _ ha] at h2
    exact absurd (by rw [← h2]; simp) hb
  · rw [hplain] at h1
    have e0 := congrArg beforeColon h1
    rw [beforeColon_cut _ _ hs, beforeColon_cut _ _ ha] at e0
    have e1 := congrArg afterColon h1
    rw [afterColon_cut _ _ hs, afterColon_cut _ _ ha] at e1
    have e2 := congrArg beforeColon e1
    rw [beforeColon_cut _ _ hhh, beforeColon_cut _ _ hb] at e2
    have e3 := congrArg afterColon e1
    rw [afterColon_cut _ _ hhh, afterColon_cut _ _ hb] at e3
    subst e0 e2 e3
    simp only [parseChat, hsplit, ne_eq, hu, not_false_eq_true, if_true]
    rw [fixTimestamp_many hh mm ss body hhh hmm hss]

/-- C5, as the code has it: for every decrypted plaintext the listener
delivers, the sender is the text before the first `':'`. When fewer than two
`':'` follow the second one, the timestamp is the text between the first and
the second `':'` and the body is everything after the second. When two or more
follow, the timestamp is the text between the first and the fourth `':'` and
the body is everything after the fourth, further colons left in it. -/
theorem parseChat_fields (username decrypted : List Byte) (r : ChatRecord)
    (h : parseChat username decrypted = some r) :
    r.senderName = beforeColon decrypted ∧
    ∃ t rest, decrypted = r.senderName ++ colon :: (t ++ colon :: rest) ∧
      colon ∉ r.senderName ∧ colon ∉ t ∧
      ((Count rest colon < 2 ∧ r.timestamp = t ∧ r.messageText = rest) ∨
       (∃ m s body, rest = m ++ colon :: (s ++ colon :: body) ∧ colon ∉ m ∧ colon ∉ s ∧
          r.timestamp = t ++ colon :: (m ++ colon :: s) ∧ r.messageText = body)) := by
  rcases SplitN3_cases colon decrypted
    with ⟨_, hsplit⟩ | ⟨a, b, _, _, _, hsplit⟩ | ⟨a, t, rest, hd, ha, ht, hsplit⟩
  · simp [parseChat, hsplit] at h
  · simp [parseChat, hsplit] at h
  · simp only [parseChat, hsplit] at h
    split at h
    · simp only [Option.some.injEq] at h
      subst h
      subst hd
      refine ⟨(beforeColon_cut a _ ha).symm, t, rest, rfl, ha, ht, ?_⟩
      rcases first_cut colon rest with h0 | ⟨m, b, rfl, hm⟩
      · left
        have hc := Count_whole colon rest h0
        refine ⟨by omega, ?_, ?_⟩ <;> simp [fixTimestamp_few t rest (by omega)]
      · rcases first_cut colon b with h1 | ⟨s, body, rfl, hs⟩
        · left
          have hc : Count (m ++ colon :: b) colon < 2 := by
            rw [Count_cut colon m b hm, Count_whole colon b h1]
            omega
          refine ⟨hc, ?_, ?_⟩ <;> simp [fixTimestamp_few t _ hc]
        · right
          refine ⟨m, s, body, rfl, hm, hs, ?_, ?_⟩ <;>
            simp [fixTimestamp_many t m s body ht hm hs]
    · simp at h

/-- C5, as the code has it, on the plaintext "bob:12:34:56:hi" received by
alice: two `':'` follow the second one, and the timestamp is "12:34:56". -/
theorem parseChat_fields_witness :
    parseChat (asc "alice") (asc "bob:12:34:56:hi")
        = some ⟨asc "bob", asc "12:34:56", asc "hi"⟩ ∧
    asc "bob" = beforeColon (asc "bob:12:34:56:hi") ∧
    ∃ t rest, asc "bob:12:34:56:hi" = asc "bob" ++ colon :: (t ++ colon :: rest) ∧
      colon ∉ asc "bob" ∧ colon ∉ t ∧
      ((Count rest colon < 2 ∧ asc "12:34:56" = t ∧ asc "hi" = rest) ∨
       (∃ m s body, rest = m ++ colon :: (s ++ colon :: body) ∧ colon ∉ m ∧ colon ∉ s ∧
          asc "12:34:56" = t ++ colon :: (m ++ colon :: s) ∧ asc "hi" = body)) :=
  ⟨by decide,
    parseChat_fields (asc "alice") (asc "bob:12:34:56:hi")
      ⟨asc "bob", asc "12:34:56", asc "hi"⟩ (by decide)⟩

/-- C5 as stated fails: the plaintext "bob:12:34:56:hi" is delivered with the
timestamp "12:34:56" and the body "hi", not with "12" and "34:56:hi". -/
theorem threePartSplit_fails : ¬ ThreePartSplit (asc "alice") (asc "bob:12:34:56:hi") := by
  intro h
  have h1 := (h ⟨asc "bob", asc "12:34:56", asc "hi"⟩ (by decide)).2.1
  revert h1
  decide

/-! ## base64: the decoder fails exactly on text that is not padded base64 -/

theorem decodeMap_ne_iff (c : Byte) : decodeMap c ≠ 255 ↔ c ∈ encodeStd := by
  have hlen : encodeStd.length = 64 := by decide
  unfold decodeMap
  constructor
  · intro h
    by_cases hlt : List.indexOf c encodeStd < 64
    · rw [← hlen] at hlt
      exact List.indexOf_lt_length.mp hlt
    · rw [if_neg hlt] at h
      exact absurd rfl h
  · intro h
    have hlt : List.indexOf c encodeStd < 64 := by
      rw [← hlen]
      exact List.indexOf_lt_length.mpr h
    rw [if_pos hlt]
    omega

theorem decodeMap_eq_of_not_mem (c : Byte) (h : c ∉ encodeStd) : decodeMap c = 255 := by
  by_contra hne
  exact h ((decodeMap_ne_iff c).mp hne)

theorem newline_not_mem : newline ∉ encodeStd := by decide

theorem carriage_not_mem : carriage ∉ encodeStd := by decide

theorem padChar_not_mem : padChar ∉ encodeStd := by decide

theorem decodeLoop_newline (c : Byte) (rest : List Byte) (si : Nat) (dbuf : List Nat)
    (h : c = newline ∨ c = carriage) :
    decodeLoop (c :: rest) si dbuf = decodeLoop rest (si + 1) dbuf := by
  have hm : decodeMap c = 255 := by
    rcases h with rfl | rfl
    · exact decodeMap_newline
    · exact decodeMap_carriage
  simp [decodeLoop, hm, h]

theorem decodeLoop_bad (c : Byte) (rest : List Byte) (si : Nat) (dbuf : List Nat)
    (hm : c ∉ encodeStd) (hnl : ¬ (c = newline ∨ c = carriage)) (hp : c ≠ padChar) :
    decodeLoop (c :: rest) si dbuf = Except.error (Error.corruptInput si) := by
  simp [decodeLoop, decodeMap_eq_of_not_mem c hm, hnl, hp]

theorem padChar_not_newline : ¬ (padChar = newline ∨ padChar = carriage) := by decide

theorem decodeLoop_pad2 (rest : List Byte) (si d0 d1 : Nat) :
    decodeLoop (padChar :: rest) si [d0, d1] =
      match skipNewlines rest (si + 1) with
      | ([], si1) => Except.error (Error.corruptInput si1)
      | (c2 :: rest2, si1) =>
        if c2 ≠ padChar then Except.error (Error.corruptInput (si1 - 1))
        else
          match skipNewlines rest2 (si1 + 1) with
          | ([], _) => Except.ok ((quantumBytes d0 d1 0 0).take 1)
          | (_ :: _, si2) => Except.error (Error.corruptInput si2) := by
  simp [decodeLoop, decodeMap_padChar, padChar_not_newline]

theorem decodeLoop_pad3 (rest : List Byte) (si d0 d1 d2 : Nat) :
    decodeLoop (padChar :: rest) si [d0, d1, d2] =
      match skipNewlines rest (si + 1) with
      | ([], _) => Except.ok ((quantumBytes d0 d1 d2 0).take 2)
      | (_ :: _, si1) => Except.error (Error.corruptInput si1) := by
  simp [decodeLoop, decodeMap_padChar, padChar_not_newline]

theorem decodeLoop_pad_early (rest : List Byte) (si : Nat) (dbuf : List Nat)
    (h : dbuf.length < 2) :
    decodeLoop (padChar :: rest) si dbuf = Except.error (Error.corruptInput si) := by
  rcases dbuf with _ | ⟨d0, _ | ⟨d1, t⟩⟩
  · simp [decodeLoop, decodeMap_padChar, padChar_not_newline]
  · simp [decodeLoop, decodeMap_padChar, padChar_not_newline]
  · simp only [List.length_cons] at h
    omega

/-- After the skipped line breaks either nothing is left, or a byte that is no
line break. -/
theorem skipNewlines_cases : ∀ (s : List Byte) (si : Nat),
    (∃ si1, skipNewlines s si = ([], si1) ∧ stripNewlines s = []) ∨
    (∃ c r si1, skipNewlines s si = (c :: r, si1) ∧
      stripNewlines s = c :: stripNewlines r)
  | [], si => Or.inl ⟨si, rfl, rfl⟩
  | c :: cs, si => by
    by_cases h : c = newline ∨ c = carriage
    · have hs : stripNewlines (c :: cs) = stripNewlines cs := by
        rcases h with rfl | rfl <;> simp [stripNewlines, List.filter]
      rcases skipNewlines_cases cs (si + 1) with ⟨si1, h1, h2⟩ | ⟨c', r, si1, h1, h2⟩
      · exact Or.inl ⟨si1, by simp [skipNewlines, h, h1], by rw [hs, h2]⟩
      · exact Or.inr ⟨c', r, si1, by simp [skipNewlines, h, h1], by rw [hs, h2]⟩
    · refine Or.inr ⟨c, cs, si, by simp [skipNewlines, h], ?_⟩
      have h' : ¬ c = newline ∧ ¬ c = carriage := not_or.mp h
      simp [stripNewlines, List.filter, h'.1, h'.2]

theorem stripNewlines_cons_keep (c : Byte) (rest : List Byte)
    (h : ¬ (c = newline ∨ c = carriage)) :
    stripNewlines (c :: rest) = c :: stripNewlines rest := by
  have h' : ¬ c = newline ∧ ¬ c = carriage := not_or.mp h
  simp [stripNewlines, List.filter, h'.1, h'.2]

theorem stripNewlines_cons_drop (c : Byte) (rest : List Byte)
    (h : c = newline ∨ c = carriage) :
    stripNewlines (c :: rest) = stripNewlines rest := by
  rcases h with rfl | rfl <;> simp [stripNewlines, List.filter]

/-- The decoder succeeds exactly when the recogniser accepts the text without
its line breaks. -/
theorem isOk_decodeLoop : ∀ (s : List Byte) (si : Nat) (dbuf : List Nat), dbuf.length ≤ 3 →
    (decodeLoop s si dbuf).isOk = acceptFrom dbuf.length (stripNewlines s)
  | [], si, dbuf, _ => by
    cases dbuf <;> simp [decodeLoop, stripNewlines, acceptFrom, Except.isOk, Except.toBool]
  | c :: rest, si, dbuf, hj => by
    by_cases hmem : c ∈ encodeStd
    · have hnl : ¬ (c = newline ∨ c = carriage) := by
        rintro (rfl | rfl)
        · exact newline_not_mem hmem
        · exact carriage_not_mem hmem
      have hc : decodeMap c ≠ 255 := (decodeMap_ne_iff c).mpr hmem
      rw [stripNewlines_cons_keep c rest hnl]
      simp only [acceptFrom, hmem, if_true]
      rcases Nat.lt_or_ge dbuf.length 3 with hlt | hge
      · rw [decodeLoop_read c rest si dbuf hc hlt,
          isOk_decodeLoop rest (si + 1) (dbuf ++ [decodeMap c]) (by simp; omega)]
        simp only [List.length_append, List.length_singleton]
        rw [Nat.mod_eq_of_lt (by omega)]
      · have h3 : dbuf.length = 3 := by omega
        obtain ⟨d0, d1, d2, rfl⟩ : ∃ d0 d1 d2, dbuf = [d0, d1, d2] := by
          rcases dbuf with _ | ⟨d0, _ | ⟨d1, _ | ⟨d2, _ | ⟨d3, t⟩⟩⟩⟩ <;> simp at h3
          exact ⟨d0, d1, d2, rfl⟩
        rw [decodeLoop_full c rest si d0 d1 d2 hc]
        have ih := isOk_decodeLoop rest (si + 1) [] (by simp)
        simp only [List.length_nil] at ih
        simp only [List.length_cons, List.length_nil]
        rw [← ih]
        cases decodeLoop rest (si + 1) [] <;> rfl
    · by_cases hnl : c = newline ∨ c = carriage
      · rw [decodeLoop_newline c rest si dbuf hnl, stripNewlines_cons_drop c rest hnl]
        exact isOk_decodeLoop rest (si + 1) dbuf hj
      · rw [stripNewlines_cons_keep c rest hnl]
        by_cases hp : c = padChar
        · subst hp
          simp only [acceptFrom, hmem, if_false, if_true]
          rcases dbuf with _ | ⟨d0, _ | ⟨d1, _ | ⟨d2, _ | ⟨d3, t⟩⟩⟩⟩
          · rw [decodeLoop_pad_early rest si [] (by simp)]
            simp [Except.isOk, Except.toBool]
          · rw [decodeLoop_pad_early rest si [d0] (by simp)]
            simp [Except.isOk, Except.toBool]
          · rw [decodeLoop_pad2]
            rcases skipNewlines_cases rest (si + 1) with ⟨si1, h1, h2⟩ | ⟨c2, r, si1, h1, h2⟩
            · rw [h1, h2]
              simp [Except.isOk, Except.toBool]
            · rw [h1, h2]
              by_cases hc2 : c2 = padChar
              · subst hc2
                rcases skipNewlines_cases r (si1 + 1) with ⟨si2, h3, h4⟩ | ⟨c3, r3, si2, h3, h4⟩
                · simp [h3, h4, Except.isOk, Except.toBool]
                · simp [h3, h4, Except.isOk, Except.toBool]
              · simp [hc2, Except.isOk, Except.toBool]
          · rw [decodeLoop_pad3]
            rcases skipNewlines_cases rest (si + 1) with ⟨si1, h1, h2⟩ | ⟨c2, r, si1, h1, h2⟩
            · simp [h1, h2, Except.isOk, Except.toBool]
            · simp [h1, h2, Except.isOk, Except.toBool]
          · simp only [List.length_cons] at hj
            omega
        · rw [decodeLoop_bad c rest si dbuf hmem hnl hp]
          simp [acceptFrom, hmem, hp, Except.isOk, Except.toBool]

theorem acceptFrom_cons_mem (j : Nat) (c : Byte) (t : List Byte) (h : c ∈ encodeStd) :
    acceptFrom j (c :: t) = acceptFrom ((j + 1) % 4) t := by
  simp [acceptFrom, h]

/-- The recogniser started on a quantum boundary is the specification. -/
theorem acceptFrom_zero : ∀ t : List Byte, acceptFrom 0 t = wellPadded t
  | [] => by simp [acceptFrom, wellPadded]
  | [a] => by
    by_cases ha : a ∈ encodeStd <;> simp [acceptFrom, wellPadded, ha]
  | [a, b] => by
    by_cases ha : a ∈ encodeStd <;> by_cases hb : b ∈ encodeStd <;>
      simp [acceptFrom, wellPadded, ha, hb]
  | [a, b, c] => by
    by_cases ha : a ∈ encodeStd <;> by_cases hb : b ∈ encodeStd <;>
      by_cases hc : c ∈ encodeStd <;> simp [acceptFrom, wellPadded, ha, hb, hc]
  | [a, b, c, d] => by
    have hpad := padChar_not_mem
    by_cases ha : a ∈ encodeStd <;> by_cases hb : b ∈ encodeStd <;>
      by_cases hc : c ∈ encodeStd <;> by_cases hd : d ∈ encodeStd <;>
      by_cases hcp : c = padChar <;> by_cases hdp : d = padChar <;>
      simp_all [acceptFrom, wellPadded]
  | a :: b :: c :: d :: e :: rest => by
    have ih := acceptFrom_zero (e :: rest)
    by_cases hall : a ∈ encodeStd ∧ b ∈ encodeStd ∧ c ∈ encodeStd ∧ d ∈ encodeStd
    · obtain ⟨ha, hb, hc, hd⟩ := hall
      rw [acceptFrom_cons_mem 0 a _ ha, acceptFrom_cons_mem _ b _ hb,
        acceptFrom_cons_mem _ c _ hc, acceptFrom_cons_mem _ d _ hd]
      simp only [wellPadded, ha, hb, hc, hd, decide_True, Bool.true_and]
      exact ih
    · by_cases ha : a ∈ encodeStd <;> by_cases hb : b ∈ encodeStd <;>
        by_cases hc : c ∈ encodeStd <;> by_cases hd : d ∈ encodeStd <;>
        first
        | (simp [acceptFrom, wellPadded, ha, hb, hc, hd]; done)
        | exact absurd (And.intro ha (And.intro hb (And.intro hc hd))) hall

/-- `DecodeString` returns an error exactly on the texts that are not valid
standard padded base64. -/
theorem DecodeString_isOk (s : List Byte) : (DecodeString s).isOk = validBase64 s := by
  have h := isOk_decodeLoop s 0 [] (by simp)
  simp only [List.length_nil] at h
  rw [DecodeString, h, acceptFrom_zero]
  rfl

theorem DecodeString_invalid (s : List Byte) (h : validBase64 s = false) :
    ∃ e, DecodeString s = Except.error e := by
  have h1 := DecodeString_isOk s
  rw [h] at h1
  cases hd : DecodeString s with
  | error e => exact ⟨e, rfl⟩
  | ok data =>
    rw [hd] at h1
    simp [Except.isOk, Except.toBool] at h1

/-- Every error of the decoder is a `CorruptInputError`. -/
theorem decodeLoop_error : ∀ (s : List Byte) (si : Nat) (dbuf : List Nat) (e : Error),
    decodeLoop s si dbuf = Except.error e → ∃ n, e = Error.corruptInput n
  | [], si, dbuf, e, h => by
    cases dbuf with
    | nil => simp [decodeLoop] at h
    | cons d t =>
      simp only [decodeLoop, Except.error.injEq] at h
      exact ⟨_, h.symm⟩
  | c :: rest, si, dbuf, e, h => by
    simp only [decodeLoop] at h
    split at h
    · split at h
      · split at h
        · simp at h
        · rename_i e' he'
          simp only [Except.error.injEq] at h
          subst h
          exact decodeLoop_error rest (si + 1) [] _ he'
      · exact decodeLoop_error rest (si + 1) _ e h
    · split at h
      · exact decodeLoop_error rest (si + 1) dbuf e h
      · split at h
        · simp only [Except.error.injEq] at h
          exact ⟨_, h.symm⟩
        · split at h
          · split at h
            · simp only [Except.error.injEq] at h
              exact ⟨_, h.symm⟩
            · split at h
              · simp only [Except.error.injEq] at h
                exact ⟨_, h.symm⟩
              · split at h
                · simp at h
                · simp only [Except.error.injEq] at h
                  exact ⟨_, h.symm⟩
          · split at h
            · simp at h
            · simp only [Except.error.injEq] at h
              exact ⟨_, h.symm⟩
          · simp only [Except.error.injEq] at h
            exact ⟨_, h.symm⟩

/-! ## The receive path -/

theorem HasPrefix_take (bytes p : List Byte) (n : Nat) (hn : p.length ≤ n) :
    HasPrefix (bytes.take n) p = HasPrefix bytes p := by
  simp only [HasPrefix, List.length_take, List.take_take, Nat.min_eq_left hn]
  by_cases h : p.length ≤ bytes.length
  · have h2 : p.length ≤ min n bytes.length := Nat.le_min.mpr ⟨hn, h⟩
    simp [h, h2]
  · have h2 : ¬ p.length ≤ min n bytes.length := fun h3 => h (le_trans h3 (Nat.min_le_right _ _))
    simp [h, h2]

/-- C6: for every inbound datagram whose bytes do not begin with the five
bytes "CHAT:", and for every key, username and debug setting, one iteration of
the listener leaves the whole state as it was: nothing is appended to the
message view and `decrypt` is not called. -/
theorem listenerStep_foreign (A : AEAD) (s : Session) (w : World) (bytes : List Byte)
    (h : bytes.take 5 ≠ asc "CHAT:") :
    listenerStep A s w (ReadResult.datagram bytes) = w := by
  have hp : HasPrefix (bytes.take readBufferSize) (asc "CHAT:") = false := by
    rw [HasPrefix_take bytes (asc "CHAT:") readBufferSize (by decide)]
    have h5 : (asc "CHAT:").length = 5 := by decide
    simp only [HasPrefix, h5]
    simp [h]
  simp [listenerStep, hp]

/-- C6 on the datagram "MDNS-ish payload", received by eve in debug mode. -/
theorem listenerStep_foreign_witness :
    (asc "MDNS-ish payload").take 5 ≠ asc "CHAT:" ∧
    listenerStep demoAEAD eve World.start (ReadResult.datagram (asc "MDNS-ish payload"))
      = World.start :=
  ⟨by decide,
    listenerStep_foreign demoAEAD eve World.start (asc "MDNS-ish payload") (by decide)⟩

/-- C2: for every sender without `':'`, every timestamp of the shape
`HH:MM:SS` and every body, colons or not: when a peer whose username differs
from the sender receives a "CHAT:" datagram that decrypts to the plaintext
`sender:timestamp:body` built by the send path, the listener parses it into
exactly that sender, that timestamp and that body, and hands that record, as
one chat line, to the message view. -/
theorem listenerStep_delivers (A : AEAD) (s : Session) (w : World)
    (bytes sender timestamp body : List Byte)
    (hp : HasPrefix bytes (asc "CHAT:") = true)
    (hd : (decrypt A ((bytes.take readBufferSize).drop 5) s.key).result
      = Except.ok (framePlaintext sender timestamp body))
    (hs : colon ∉ sender) (ht : isClock timestamp = true) (hu : sender ≠ s.username) :
    parseChat s.username (framePlaintext sender timestamp body)
      = some { senderName := sender, timestamp := timestamp, messageText := body } ∧
    (listenerStep A s w (ReadResult.datagram bytes)).messageView
      = w.messageView ++
          [ViewLine.chat { senderName := sender, timestamp := timestamp, messageText := body }] := by
  have hparse := parseChat_framePlaintext s.username sender timestamp body hs ht hu
  have hp1 : HasPrefix (bytes.take readBufferSize) (asc "CHAT:") = true := by
    rw [HasPrefix_take bytes (asc "CHAT:") readBufferSize (by decide)]
    exact hp
  refine ⟨hparse, ?_⟩
  simp [listenerStep, hp1, hd, hparse]

/-- C2 at the input of the specification: username "carol", time 01:02:03,
body "url: https://x/y:z", received by bob. -/
theorem listenerStep_delivers_witness :
    HasPrefix carolFrame (asc "CHAT:") = true ∧
    (decrypt demoAEAD ((carolFrame.take readBufferSize).drop 5) bob.key).result
      = Except.ok (framePlaintext (asc "carol") (asc "01:02:03") (asc "url: https://x/y:z")) ∧
    colon ∉ asc "carol" ∧ isClock (asc "01:02:03") = true ∧ asc "carol" ≠ bob.username ∧
    parseChat bob.username
        (framePlaintext (asc "carol") (asc "01:02:03") (asc "url: https://x/y:z"))
      = some { senderName := asc "carol", timestamp := asc "01:02:03",
               messageText := asc "url: https://x/y:z" } ∧
    (listenerStep demoAEAD bob World.start (ReadResult.datagram carolFrame)).messageView
      = World.start.messageView ++
          [ViewLine.chat { senderName := asc "carol", timestamp := asc "01:02:03",
                           messageText := asc "url: https://x/y:z" }] :=
  ⟨by decide, by decide, by decide, by decide, by decide,
    listenerStep_delivers demoAEAD bob World.start carolFrame (asc "carol") (asc "01:02:03")
      (asc "url: https://x/y:z") (by decide) (by decide) (by decide) (by decide) (by decide)⟩

theorem parseChat_self (username decrypted : List Byte)
    (h : beforeColon decrypted = username) : parseChat username decrypted = none := by
  rcases SplitN3_cases colon decrypted
    with ⟨_, hsplit⟩ | ⟨a, b, _, _, _, hsplit⟩ | ⟨a, t, rest, hd, ha, _, hsplit⟩
  · simp [parseChat, hsplit]
  · simp [parseChat, hsplit]
  · subst hd
    rw [beforeColon_cut a _ ha] at h
    subst h
    simp [parseChat, hsplit]

/-- C7: for every inbound datagram that carries the "CHAT:" prefix and
decrypts to a plaintext whose sender field, the text before the first `':'`,
is the local username, one iteration of the listener appends nothing to the
message view, whatever the timestamp and the body are. -/
theorem listenerStep_self_echo (A : AEAD) (s : Session) (w : World)
    (bytes plaintext : List Byte)
    (hp : HasPrefix bytes (asc "CHAT:") = true)
    (hd : (decrypt A ((bytes.take readBufferSize).drop 5) s.key).result = Except.ok plaintext)
    (hs : beforeColon plaintext = s.username) :
    (listenerStep A s w (ReadResult.datagram bytes)).messageView = w.messageView := by
  have hp1 : HasPrefix (bytes.take readBufferSize) (asc "CHAT:") = true := by
    rw [HasPrefix_take bytes (asc "CHAT:") readBufferSize (by decide)]
    exact hp
  simp [listenerStep, hp1, hd, parseChat_self s.username plaintext hs]

/-- C7 on alice receiving her own frame "alice:12:34:56:hi bob". -/
theorem listenerStep_self_echo_witness :
    HasPrefix aliceFrame (asc "CHAT:") = true ∧
    (decrypt demoAEAD ((aliceFrame.take readBufferSize).drop 5) alice.key).result
      = Except.ok (asc "alice:12:34:56:hi bob") ∧
    beforeColon (asc "alice:12:34:56:hi bob") = alice.username ∧
    (listenerStep demoAEAD alice World.start (ReadResult.datagram aliceFrame)).messageView
      = World.start.messageView :=
  ⟨by decide, by decide, by decide,
    listenerStep_self_echo demoAEAD alice World.start aliceFrame
      (asc "alice:12:34:56:hi bob") (by decide) (by decide) (by decide)⟩

/-- C8: for every inbound datagram with the "CHAT:" prefix whose remainder
makes `decrypt` return an error, one iteration of the listener appends no chat
line; with debug off the message view is unchanged, with debug on it gains
exactly the one line "Failed to decrypt message" with that error. In both modes
the listener goes on with the next read. -/
theorem listenerStep_decrypt_error (A : AEAD) (s : Session) (w : World)
    (bytes : List Byte) (err : Error) (later : List ReadResult)
    (hp : HasPrefix bytes (asc "CHAT:") = true)
    (hd : (decrypt A ((bytes.take readBufferSize).drop 5) s.key).result = Except.error err) :
    (s.debug = false →
      (listenerStep A s w (ReadResult.datagram bytes)).messageView = w.messageView) ∧
    (s.debug = true →
      (listenerStep A s w (ReadResult.datagram bytes)).messageView
        = w.messageView ++ [ViewLine.decryptFailed err]) ∧
    listener A s (ReadResult.datagram bytes :: later) w
      = listener A s later (listenerStep A s w (ReadResult.datagram bytes)) := by
  have hp1 : HasPrefix (bytes.take readBufferSize) (asc "CHAT:") = true := by
    rw [HasPrefix_take bytes (asc "CHAT:") readBufferSize (by decide)]
    exact hp
  refine ⟨?_, ?_, rfl⟩
  · intro hdebug
    simp [listenerStep, hp1, hd, hdebug]
  · intro hdebug
    simp [listenerStep, hp1, hd, hdebug]

/-- C8 on eve, who holds another key and has debug on, receiving alice's
frame: authentication fails and one diagnostic line is shown. -/
theorem listenerStep_decrypt_error_witness :
    HasPrefix aliceFrame (asc "CHAT:") = true ∧
    (decrypt demoAEAD ((aliceFrame.take readBufferSize).drop 5) eve.key).result
      = Except.error Error.openFailed ∧
    (eve.debug = false →
      (listenerStep demoAEAD eve World.start (ReadResult.datagram aliceFrame)).messageView
        = World.start.messageView) ∧
    (eve.debug = true →
      (listenerStep demoAEAD eve World.start (ReadResult.datagram aliceFrame)).messageView
        = World.start.messageView ++ [ViewLine.decryptFailed Error.openFailed]) ∧
    listener demoAEAD eve [ReadResult.datagram aliceFrame] World.start
      = listener demoAEAD eve []
          (listenerStep demoAEAD eve World.start (ReadResult.datagram aliceFrame)) :=
  ⟨by decide, by decide,
    listenerStep_decrypt_error demoAEAD eve World.start aliceFrame Error.openFailed []
      (by decide) (by decide)⟩

/-! ## decrypt on malformed envelopes -/

/-- C9: for every 32-byte key and every input text, `decrypt` returns an error
and no plaintext whenever the text is not valid standard padded base64, and
whenever it is valid base64 that decodes to fewer than 12 bytes; in the second
case the error is "ciphertext too short", `gcm.Open` is never called and no
slice expression is evaluated out of bounds. -/
theorem decrypt_rejects (A : AEAD) (key text : List Byte) (hk : key.length = 32) :
    (validBase64 text = false → ∃ e, decrypt A text key = ⟨Except.error e, []⟩) ∧
    (∀ data, DecodeString text = Except.ok data → data.length < 12 →
      decrypt A text key = ⟨Except.error Error.tooShort, []⟩) := by
  constructor
  · intro hv
    obtain ⟨e, he⟩ := DecodeString_invalid text hv
    exact ⟨e, by simp [decrypt, he]⟩
  · intro data hd hlen
    have h : data.length < nonceSize := hlen
    simp [decrypt, hd, NewCipher_32 key hk, h]

/-- C9 on the text "TQ=", which lacks a padding character, and on "TQ==",
which decodes to the single byte "M". -/
theorem decrypt_rejects_witness :
    demoKey.length = 32 ∧
    (∃ e, decrypt demoAEAD (asc "TQ=") demoKey = ⟨Except.error e, []⟩) ∧
    decrypt demoAEAD (asc "TQ==") demoKey = ⟨Except.error Error.tooShort, []⟩ :=
  ⟨by decide,
    (decrypt_rejects demoAEAD demoKey (asc "TQ=") (by decide)).1 (by decide),
    (decrypt_rejects demoAEAD demoKey (asc "TQ==") (by decide)).2 (asc "M") (by decide)
      (by decide)⟩

/-- The slice expressions of `decrypt` are never evaluated out of bounds: no
input makes it panic. -/
theorem decrypt_no_panic (A : AEAD) (text key : List Byte) :
    (decrypt A text key).result ≠ Except.error Error.sliceBounds := by
  unfold decrypt
  cases hd : DecodeString text with
  | error e =>
    obtain ⟨n, rfl⟩ := decodeLoop_error text 0 [] e hd
    simp
  | ok data =>
    cases hc : NewCipher key with
    | error e =>
      unfold NewCipher at hc
      split at hc
      · simp at hc
      · simp only [Except.error.injEq] at hc
        subst hc
        simp
    | ok u =>
      by_cases hlen : data.length < nonceSize
      · simp [hlen]
      · have h0 : sliceStr data 0 (nonceSize : Nat) = some ((data.take nonceSize).drop 0) := by
          have := sliceStr_nat data 0 nonceSize (Nat.zero_le _) (by omega)
          rw [Nat.cast_zero] at this
          exact this
        have h1 := sliceStr_nat data nonceSize data.length (by omega) (le_refl _)
        simp only [hlen, if_false, h0, h1]
        cases A.Open key ((data.take nonceSize).drop 0) ((data.take data.length).drop nonceSize)
          <;> simp

/-! ## The send path -/

/-- What the done-callback does with a non-empty line when the key is 32 bytes
long, the random source supplies the nonce, the write succeeds and debug is
off. The length of the line plays no part. -/
theorem onDone_sends (A : AEAD) (s : Session) (env : SendEnv) (w : World)
    (hmsg : w.inputField ≠ []) (hk : s.key.length = 32) (hr : 12 ≤ env.rand.length)
    (hw : env.writeErr = none) (hdebug : s.debug = false) :
    onDone A s env true w =
      { w with
        encryptCalls := w.encryptCalls ++
          [framePlaintext s.username (formatClock env.now) w.inputField]
        sendWrites := w.sendWrites ++
          [asc "CHAT:" ++ EncodeToString (env.rand.take 12 ++ A.Seal s.key (env.rand.take 12)
            (framePlaintext s.username (formatClock env.now) w.inputField))]
        messageView := w.messageView ++
          [ViewLine.chat ⟨s.username, formatClock env.now, w.inputField⟩]
        inputField := [] } := by
  simp [onDone, hmsg, encrypt_eq A env.rand _ s.key hk hr, hw, hdebug]

/-- The length of the wire frame: `5 + 4 * ceil((len(plaintext) + 28) / 3)` for
an AEAD whose tag is 16 bytes long. -/
theorem frame_length (A : AEAD)
    (hA : ∀ k n m : List Byte, k.length = 32 → (A.Seal k n m).length = m.length + 16)
    (rand m k encrypted : List Byte) (hk : k.length = 32) (hr : 12 ≤ rand.length)
    (he : encrypt A rand m k = Except.ok encrypted) :
    (asc "CHAT:" ++ encrypted).length = 5 + 4 * ((m.length + 28 + 2) / 3) := by
  rw [encrypt_eq A rand m k hk hr] at he
  simp only [Except.ok.injEq] at he
  subst he
  have h5 : (asc "CHAT:").length = 5 := by decide
  rw [List.length_append, h5, EncodeToString_length, List.length_append, hA _ _ _ hk,
    List.length_take, Nat.min_eq_left hr]
  omega

/-- The wire frame fits the listener's 1024-byte buffer exactly when the
plaintext is at most 734 bytes long. -/
theorem frame_fits_iff (n : Nat) : 5 + 4 * ((n + 28 + 2) / 3) ≤ readBufferSize ↔ n ≤ 734 := by
  simp only [readBufferSize]
  omega

theorem demoAEAD_seal_length (k n m : List Byte) (hk : k.length = 32) :
    (demoAEAD.Seal k n m).length = m.length + 16 := by
  simp [demoAEAD, tagSize, hk]

theorem framePlaintext_length (username timestamp message : List Byte) :
    (framePlaintext username timestamp message).length
      = username.length + timestamp.length + message.length + 2 := by
  simp only [framePlaintext, List.length_append, List.length_cons]
  omega

theorem oversizeLine_length : oversizeLine.length = 885 := List.length_replicate _ _

theorem fullSizePlaintext_length : fullSizePlaintext.length = 768 := List.length_replicate _ _

/-- C3, the code at a 900-byte plaintext: alice submits a line of 885 bytes at
12:34:56. The plaintext is 900 bytes long, above `maxInputSize`; `encrypt` is
called on it, one datagram is written to the send socket, and the message view
gains the chat line and no error line. -/
theorem onDone_oversize_is_sent :
    (framePlaintext (asc "alice") (asc "12:34:56") oversizeLine).length = 900 ∧
    maxInputSize < (framePlaintext (asc "alice") (asc "12:34:56") oversizeLine).length ∧
    (onDone demoAEAD alice ⟨⟨12, 34, 56⟩, demoNonce, none⟩ true
        { World.start with inputField := oversizeLine }).encryptCalls
      = [framePlaintext (asc "alice") (asc "12:34:56") oversizeLine] ∧
    (onDone demoAEAD alice ⟨⟨12, 34, 56⟩, demoNonce, none⟩ true
        { World.start with inputField := oversizeLine }).sendWrites.length = 1 ∧
    (onDone demoAEAD alice ⟨⟨12, 34, 56⟩, demoNonce, none⟩ true
        { World.start with inputField := oversizeLine }).messageView
      = [ViewLine.chat ⟨asc "alice", asc "12:34:56", oversizeLine⟩] := by
  have hlen : (framePlaintext (asc "alice") (asc "12:34:56") oversizeLine).length = 900 := by
    rw [framePlaintext_length, oversizeLine_length]
    decide
  have hclock : formatClock ⟨12, 34, 56⟩ = asc "12:34:56" := by decide
  have hne : oversizeLine ≠ [] := by
    intro h
    have h1 := congrArg List.length h
    rw [oversizeLine_length] at h1
    exact absurd h1 (by decide)
  have hrun := onDone_sends demoAEAD alice ⟨⟨12, 34, 56⟩, demoNonce, none⟩
    { World.start with inputField := oversizeLine } hne (by decide) (by decide) rfl rfl
  refine ⟨hlen, ?_, ?_, ?_, ?_⟩
  · rw [hlen]
    decide
  · rw [hrun, hclock]
    rfl
  · rw [hrun]
    rfl
  · rw [hrun, hclock]
    rfl

set_option maxRecDepth 100000 in
/-- C4, the code at a 768-byte plaintext: the frame is 1069 bytes long, the
listener's 1024-byte read cuts it, and bob, who holds the key, is shown
nothing. -/
theorem frame_exceeds_read_buffer :
    fullSizePlaintext.length = maxInputSize ∧
    ∃ encrypted, encrypt demoAEAD demoNonce fullSizePlaintext demoKey = Except.ok encrypted ∧
      (asc "CHAT:" ++ encrypted).length = 1069 ∧
      readBufferSize < (asc "CHAT:" ++ encrypted).length ∧
      (asc "CHAT:" ++ encrypted).take readBufferSize ≠ asc "CHAT:" ++ encrypted ∧
      (listenerStep demoAEAD bob World.start
        (ReadResult.datagram (asc "CHAT:" ++ encrypted))).messageView = [] := by
  have hk : demoKey.length = 32 := by decide
  have hr : 12 ≤ demoNonce.length := by decide
  have henc := encrypt_eq demoAEAD demoNonce fullSizePlaintext demoKey hk hr
  have hlen := frame_length demoAEAD demoAEAD_seal_length
    demoNonce fullSizePlaintext demoKey _ hk hr henc
  rw [fullSizePlaintext_length] at hlen
  have hlen2 : (asc "CHAT:" ++ EncodeToString (demoNonce.take 12 ++
      demoAEAD.Seal demoKey (demoNonce.take 12) fullSizePlaintext)).length = 1069 := by
    rw [hlen]
  refine ⟨fullSizePlaintext_length, _, henc, hlen2, ?_, ?_, ?_⟩
  · rw [hlen2]
    decide
  · intro h
    have h1 := congrArg List.length h
    rw [List.length_take, hlen2] at h1
    exact absurd h1 (by decide)
  · decide

end MChat
